import Mathlib

set_option linter.unusedVariables false

/-! Verification of the PDF-outline extraction core (src/nlp.py and
src/process_pdfs.py): a shallow embedding of the classification pipeline.

Python strings are modelled as lists of `PChar`, a classification of a
Unicode character by exactly the attributes the code consults
(`str.isalpha`, `str.isupper`, `str.islower`, whitespace, and the regex
classes `\w` and `\s`), together with a code point that carries identity.
Floating-point font sizes are modelled as rationals: every operation the
code performs on them (subtraction, absolute value, comparison against a
small tolerance) is exact at the values exercised here. External
collaborators (the spaCy sentence segmenter, the spaCy model loader and the
langdetect detector) enter as explicit function parameters. -/

/-- A character as Python's predicates classify it: `upper`/`lower` are cased
letters, `titlecased` is a cased letter that is neither (Unicode Lt),
`uncased` is an alphabetic character without case (CJK), `digit` any numeric
word character, `underscore` the remaining `\w` character, `ws` a whitespace
character, `sym` everything else. The `code` is the code point, so equality
of `PChar`s is equality of characters. -/
inductive PChar where
  | upper (code : Nat)
  | lower (code : Nat)
  | titlecased (code : Nat)
  | uncased (code : Nat)
  | digit (code : Nat)
  | underscore
  | ws (code : Nat)
  | sym (code : Nat)
deriving DecidableEq, Repr

/-- Python `c.isalpha()` for a single character. -/
def PChar.isAlpha : PChar → Bool
  | .upper _ => true
  | .lower _ => true
  | .titlecased _ => true
  | .uncased _ => true
  | _ => false

/-- A cased character (Unicode Lu, Ll or Lt): what `str.isupper`/`str.islower`
quantify over. -/
def PChar.isCased : PChar → Bool
  | .upper _ => true
  | .lower _ => true
  | .titlecased _ => true
  | _ => false

/-- Python `c.isupper()` for a single character. -/
def PChar.isUpper : PChar → Bool
  | .upper _ => true
  | _ => false

/-- Python `c.islower()` for a single character. -/
def PChar.isLower : PChar → Bool
  | .lower _ => true
  | _ => false

/-- The regex class `\w`: alphanumeric or underscore. -/
def PChar.isWord : PChar → Bool
  | .upper _ => true
  | .lower _ => true
  | .titlecased _ => true
  | .uncased _ => true
  | .digit _ => true
  | .underscore => true
  | _ => false

/-- The regex class `\s` / `str.isspace` for a single character. -/
def PChar.isSpace : PChar → Bool
  | .ws _ => true
  | _ => false

/-- A Python string. -/
abbrev PyStr := List PChar

/-- The literal space character `' '` (U+0020). -/
def spaceChar : PChar := PChar.ws 32

/-- Python `w.isalpha()` on a string: non-empty and every character
alphabetic. -/
def pyIsAlphaStr (w : PyStr) : Bool :=
  !w.isEmpty && w.all PChar.isAlpha

/-- Python `w.islower()` on a string: at least one cased character and every
cased character lowercase. -/
def pyIsLowerStr (w : PyStr) : Bool :=
  w.any PChar.isCased && w.all (fun c => !c.isCased || c.isLower)

/-- Python `s.strip()`: remove leading and trailing whitespace. -/
def pyStrip (s : PyStr) : PyStr :=
  ((s.dropWhile PChar.isSpace).reverse.dropWhile PChar.isSpace).reverse

/-- Worker of `pySplit`: `acc` is the current token, reversed. -/
def pySplitAux (acc : PyStr) : PyStr → List PyStr
  | [] => if acc.isEmpty then [] else [acc.reverse]
  | c :: xs =>
    if c.isSpace then
      if acc.isEmpty then pySplitAux [] xs else acc.reverse :: pySplitAux [] xs
    else pySplitAux (c :: acc) xs

/-- Python `s.split()` with no argument: the maximal whitespace-free runs, in
order; leading, trailing and repeated separators produce no empty tokens. -/
def pySplit (s : PyStr) : List PyStr :=
  pySplitAux [] s

/-- Python `" ".join(ts)`. -/
def joinSpace : List PyStr → PyStr
  | [] => []
  | [t] => t
  | t :: t2 :: ts => t ++ spaceChar :: joinSpace (t2 :: ts)

/-- Length of the maximal leading run of the character `c` in `xs`. -/
def runLen (c : PChar) (xs : PyStr) : Nat :=
  (xs.takeWhile (fun d => decide (d = c))).length

/-- What remains of `xs` after its maximal leading run of `c`. -/
def runRest (c : PChar) (xs : PyStr) : PyStr :=
  xs.dropWhile (fun d => decide (d = c))

/-- The substitution `re.sub(r'(\w)\1{2,}', r'\1', text)` from
`clean_repetitions` (src/process_pdfs.py line 56): the regex engine scans
left to right and greedily matches each maximal run of 3 or more identical
word characters, replacing it by a single instance; runs headed by a
non-word character never match because `\w` does not cover them. The
emission of one completed run of `n` copies of `c`. -/
def ccrEmit (c : PChar) (n : Nat) : PyStr :=
  if c.isWord && decide (3 ≤ n) then [c] else List.replicate n c

/-- Worker of `collapseCharRuns`: `c` is the character of the current run and
`n` how many copies of it have been consumed so far. -/
def ccrAux (c : PChar) (n : Nat) : PyStr → PyStr
  | [] => ccrEmit c n
  | x :: xs => if x = c then ccrAux c (n + 1) xs else ccrEmit c n ++ ccrAux x 1 xs

/-- The whole substitution: scan the string run by run, emitting each maximal
run through `ccrEmit`. -/
def collapseCharRuns : PyStr → PyStr
  | [] => []
  | c :: xs => ccrAux c 1 xs

/-- The substitution `re.sub(r'\s{2,}', ' ', text)` from `clean_repetitions`
(src/process_pdfs.py line 58): each maximal run of 2 or more whitespace
characters becomes one space character; a lone whitespace character is left
as it is. The worker's state is `none` outside a whitespace run and
`some (w, many)` inside one, `w` being the run's first character and `many`
whether the run already has at least two characters. -/
def cwAux : Option (PChar × Bool) → PyStr → PyStr
  | none, [] => []
  | some (w, many), [] => if many then [spaceChar] else [w]
  | none, x :: xs => if x.isSpace then cwAux (some (x, false)) xs else x :: cwAux none xs
  | some (w, many), x :: xs =>
    if x.isSpace then cwAux (some (w, true)) xs
    else (if many then [spaceChar] else [w]) ++ x :: cwAux none xs

/-- The whitespace-collapsing substitution itself. -/
def collapseWhitespace (s : PyStr) : PyStr :=
  cwAux none s

/-- The word-deduplication loop of `clean_repetitions` (src/process_pdfs.py
lines 60-66): walk the tokens keeping a `seen` set, appending a token to the
result only on its first occurrence. -/
def dedupTokens (seen : List PyStr) : List PyStr → List PyStr
  | [] => []
  | w :: rest =>
    if w ∈ seen then dedupTokens seen rest else w :: dedupTokens (w :: seen) rest

/-- `clean_repetitions(text)` (src/process_pdfs.py lines 54-67): collapse runs
of 3+ identical word characters, collapse whitespace runs, split into
tokens, drop repeated tokens keeping first occurrences, join with single
spaces. -/
def clean_repetitions (text : PyStr) : PyStr :=
  joinSpace (dedupTokens [] (pySplit (collapseWhitespace (collapseCharRuns text))))

/-- A spaCy token, as `is_full_sentence` consults it: only its `is_space`
attribute is read. -/
structure SToken where
  is_space : Bool
deriving DecidableEq, Repr

/-- A spaCy sentence: its tokens and its text, as `is_full_sentence` reads
them. -/
structure Sentence where
  tokens : List SToken
  text : PyStr
deriving DecidableEq, Repr

/-- The external linguistic engine: `get_nlp(lang_code)(text).sents`,
abstracted as a function from language code and text to sentences. -/
structure NlpEnv where
  sents : String → PyStr → List Sentence

/-- The sentence-final punctuation class `[.!?。！？]` of `is_full_sentence`
(src/nlp.py line 34). -/
def sentenceEndPunct : List PChar :=
  [PChar.sym 46, PChar.sym 33, PChar.sym 63, PChar.sym 12290, PChar.sym 65281, PChar.sym 65311]

/-- `re.search(r"[.!?。！？]$", s)` on a string with no trailing newline: the
last character is sentence-final punctuation. -/
def endsWithSentencePunct (s : PyStr) : Bool :=
  match s.getLast? with
  | some c => decide (c ∈ sentenceEndPunct)
  | none => false

/-- `is_full_sentence(text, lang_code)` (src/nlp.py lines 25-36): some
sentence of the segmentation has more than 2 non-space tokens and its
stripped text ends in sentence punctuation. -/
def is_full_sentence (env : NlpEnv) (text : PyStr) (lang_code : String := "en") : Bool :=
  (env.sents lang_code text).any (fun sent =>
    decide (2 < (sent.tokens.filter (fun t => !t.is_space)).length) &&
      endsWithSentencePunct (pyStrip sent.text))

/-- `is_all_caps(text, lang_code)` (src/nlp.py lines 38-46). -/
def is_all_caps (text : PyStr) (lang_code : String := "en") : Bool :=
  if lang_code = "ja" then false
  else
    !(text.filter PChar.isAlpha).isEmpty && (text.filter PChar.isAlpha).all PChar.isUpper

/-- The loop body of `is_title_case` (src/nlp.py line 59): a token passes when
`w[0].isupper() and w[1:].islower()`; the `[]` arm is unreachable because
the filtered tokens are non-empty. -/
def titleTokenOk : PyStr → Bool
  | [] => false
  | c :: rest => c.isUpper && pyIsLowerStr rest

/-- `is_title_case(text, lang_code)` (src/nlp.py lines 48-61): every
whitespace-delimited alphabetic token must pass `titleTokenOk`, and there
must be at least one such token. -/
def is_title_case (text : PyStr) (lang_code : String := "en") : Bool :=
  if lang_code = "ja" then false
  else
    !((pySplit text).filter pyIsAlphaStr).isEmpty &&
      ((pySplit text).filter pyIsAlphaStr).all titleTokenOk

/-- The bullet-glyph set of `starts_with_bullet` (src/nlp.py line 67):
•, ●, -, *, ▪, ‣, –, —. -/
def bullets : List PChar :=
  [PChar.sym 8226, PChar.sym 9679, PChar.sym 45, PChar.sym 42,
   PChar.sym 9642, PChar.sym 8227, PChar.sym 8211, PChar.sym 8212]

/-- `starts_with_bullet(text)` (src/nlp.py lines 63-68): Python's
`text and text[0] in bullets` returns `text` itself (the falsy empty string)
when `text` is empty, and otherwise the boolean membership test on the first
character; the left-to-right short circuit means `text[0]` is evaluated only
on non-empty input. -/
def starts_with_bullet (text : PyStr) : PyStr ⊕ Bool :=
  match text with
  | [] => Sum.inl []
  | c :: _ => Sum.inr (decide (c ∈ bullets))

/-- Python truthiness of a `str`-or-`bool` value, as the callers of
`starts_with_bullet` coerce its result. -/
def pyTruthy : PyStr ⊕ Bool → Bool
  | Sum.inl s => !s.isEmpty
  | Sum.inr b => b

/-- `is_short(text, max_words, max_chars, lang_code)` (src/nlp.py
lines 70-77). -/
def is_short (text : PyStr) (max_words : Nat := 12) (max_chars : Nat := 70)
    (lang_code : String := "en") : Bool :=
  if lang_code = "ja" then decide (text.length ≤ max_chars)
  else decide (text.length ≤ max_chars) && decide ((pySplit text).length ≤ max_words)

/-- `uppercase_ratio(text, lang_code)` (src/nlp.py lines 79-89). -/
def uppercase_ratio (text : PyStr) (lang_code : String := "en") : ℚ :=
  if lang_code = "ja" then 0
  else if (text.filter PChar.isAlpha).isEmpty then 0
  else ((text.filter PChar.isAlpha).filter PChar.isUpper).length /
    ((text.filter PChar.isAlpha).length : ℚ)

/-- The cached spaCy engine: only its identity matters here. -/
structure Engine where
  model : String
deriving DecidableEq, Repr

/-- `LANG_MODELS` (src/nlp.py lines 6-10). -/
def LANG_MODELS : List (String × String) :=
  [("en", "en_core_web_sm"), ("es", "es_core_news_sm"), ("ja", "ja_core_news_sm")]

/-- Python `dict.get(key, default)` on an association list. -/
def dictGetD (d : List (String × String)) (k : String) (dflt : String) : String :=
  match d.find? (fun p => p.1 == k) with
  | some p => p.2
  | none => dflt

/-- `get_nlp(lang_code)` (src/nlp.py lines 12-22), with `spacy.load`
abstracted as the fallible `load`: unsupported codes map to the English
model name; a load failure retries with the English model, whose own
failure propagates. The `lru_cache` is a transparent memoization of this
pure function. -/
def get_nlp (load : String → Except String Engine) (lang_code : String) : Except String Engine :=
  match load (dictGetD LANG_MODELS lang_code "en_core_web_sm") with
  | Except.ok e => Except.ok e
  | Except.error _ => load "en_core_web_sm"

/-- A text span as `extract_blocks_with_metadata` produces it
(src/process_pdfs.py lines 20-28). -/
structure Block where
  text : PyStr
  font : String
  size : ℚ
  flags : Int
  bbox : ℚ × ℚ × ℚ × ℚ
  page : Int
  origin : ℚ × ℚ
deriving DecidableEq, Repr

/-- The language-detection sample (src/process_pdfs.py lines 33-34): the
first 20 non-empty block texts joined with spaces. -/
def langSample (blocks : List Block) : PyStr :=
  joinSpace (((blocks.filter (fun b => !b.text.isEmpty)).map Block.text).take 20)

/-- `detect_language(blocks)` (src/process_pdfs.py lines 31-41), with
`langdetect.detect` abstracted as the fallible `det`: a detector failure is
caught and yields the default code "en". -/
def detect_language (det : PyStr → Except String String) (blocks : List Block) : String :=
  match det (langSample blocks) with
  | Except.ok lang => lang
  | Except.error _ => "en"

/-- Stable insertion of a block into a list sorted by the y-coordinate of
`origin`: the new block goes after every block whose key is less than or
equal to its own. -/
def insertByY (b : Block) : List Block → List Block
  | [] => [b]
  | c :: cs => if c.origin.2 ≤ b.origin.2 then c :: insertByY b cs else b :: c :: cs

/-- Python `sorted(blocks, key=lambda b: b["origin"][1])`: the stable sort by
ascending y-coordinate, blocks with equal keys keeping their given order. -/
def sortByY (l : List Block) : List Block :=
  l.foldl (fun acc b => insertByY b acc) []

/-- Python `max` over a non-empty collection: fold `max` over the tail. -/
def pyMax (x : ℚ) (xs : List ℚ) : ℚ :=
  xs.foldl max x

/-- `detect_title(blocks, lang_code)` (src/process_pdfs.py lines 69-83). The
`lang_code` parameter is accepted and never used. -/
def detect_title (blocks : List Block) (lang_code : String := "en") : PyStr :=
  match blocks.filter (fun b => decide (b.page = 1) && !b.text.isEmpty) with
  | [] => []
  | b0 :: rest =>
    pyStrip (clean_repetitions (joinSpace
      ((sortByY (((b0 :: rest).filter (fun b =>
        decide (|b.size - pyMax b0.size (rest.map Block.size)| < 0.5))))).map Block.text)))

/-- The fixed font map of `compute_font_stats` (src/process_pdfs.py
lines 86-94). -/
structure FontMap where
  H1 : ℚ
  H2 : ℚ
  H3 : ℚ
deriving DecidableEq, Repr

/-- `compute_font_stats(blocks)` (src/process_pdfs.py lines 86-94): a
hardcoded table, ignoring its argument. -/
def compute_font_stats (blocks : List Block) : FontMap :=
  { H1 := 20.04, H2 := 15.96, H3 := 12.0 }

/-- A heading level tag. -/
inductive HLevel where
  | H1
  | H2
  | H3
deriving DecidableEq, Repr

/-- `heading_level(block, font_stats)` (src/process_pdfs.py lines 96-105). -/
def heading_level (block : Block) (font_stats : FontMap) : Option HLevel :=
  if |block.size - font_stats.H1| < 0.1 then some HLevel.H1
  else if |block.size - font_stats.H2| < 0.1 then some HLevel.H2
  else if |block.size - font_stats.H3| < 0.1 then some HLevel.H3
  else none

/-- `is_heading_candidate(block, lang_code)` (src/process_pdfs.py
lines 108-117). -/
def is_heading_candidate (env : NlpEnv) (block : Block) (lang_code : String := "en") : Bool :=
  if block.text.isEmpty || pyTruthy (starts_with_bullet block.text) ||
      !is_short block.text 14 80 lang_code then false
  else if is_full_sentence env block.text lang_code then false
  else if is_all_caps block.text lang_code || is_title_case block.text lang_code ||
      decide (uppercase_ratio block.text lang_code > 0.5) then true
  else false

/-- An outline entry (src/process_pdfs.py lines 125-129): level, text, and
the 0-based page `span.page - 1`. -/
structure HeadingEntry where
  level : HLevel
  text : PyStr
  page : Int
deriving DecidableEq, Repr

/-- The accumulation loop of `extract_outline` (src/process_pdfs.py
lines 121-129): `if level and is_heading_candidate(block): append`. -/
def outlineLoop (env : NlpEnv) (lang_code : String) (font_stats : FontMap) :
    List Block → List HeadingEntry
  | [] => []
  | b :: bs =>
    match heading_level b font_stats with
    | some level =>
      if is_heading_candidate env b lang_code then
        { level := level, text := b.text, page := b.page - 1 } :: outlineLoop env lang_code font_stats bs
      else outlineLoop env lang_code font_stats bs
    | none => outlineLoop env lang_code font_stats bs

/-- `extract_outline(blocks, lang_code)` (src/process_pdfs.py
lines 119-132). -/
def extract_outline (env : NlpEnv) (blocks : List Block) (lang_code : String := "en") :
    List HeadingEntry :=
  outlineLoop env lang_code (compute_font_stats blocks) blocks

/-- Worker of `rleEncode`: `c` is the current run's character, `n` the count
consumed so far. -/
def rleAux (c : PChar) (n : Nat) : PyStr → List (PChar × Nat)
  | [] => [(c, n)]
  | x :: xs => if x = c then rleAux c (n + 1) xs else (c, n) :: rleAux x 1 xs

/-- Run-length encoding of a string: each maximal run as (character, length),
with every length positive and adjacent runs over distinct characters. -/
def rleEncode : PyStr → List (PChar × Nat)
  | [] => []
  | c :: xs => rleAux c 1 xs

/-- Decoding of a run-length encoding. -/
def rleDecode : List (PChar × Nat) → PyStr
  | [] => []
  | p :: ps => List.replicate p.2 p.1 ++ rleDecode ps

/-- Collapse, per maximal run, every run of 3 or more identical word
characters to a single instance: the spec's step 1 of the repetition
cleaner, restricted to word characters as the source regex `(\w)\1{2,}`
requires. -/
def specCollapseRuns (s : PyStr) : PyStr :=
  rleDecode ((rleEncode s).map (fun p =>
    if p.1.isWord && decide (3 ≤ p.2) then (p.1, 1) else p))

/-- Collapse, per maximal run, every run of 3 or more identical characters of
ANY kind to a single instance: the claim's reading of step 1 of the
repetition cleaner. -/
def refAnyCollapseRuns (s : PyStr) : PyStr :=
  rleDecode ((rleEncode s).map (fun p => if 3 ≤ p.2 then (p.1, 1) else p))

/-- Remove duplicate tokens, keeping only the first occurrence of each exact
token in first-seen order, written as a left fold. -/
def specDedup (ts : List PyStr) : List PyStr :=
  ts.foldl (fun acc t => if t ∈ acc then acc else acc ++ [t]) []

/-- The spec's three-step repetition cleaner with step 1 restricted to word
characters (the amended reading of the claim). -/
def clean_repetitions_spec (text : PyStr) : PyStr :=
  joinSpace (specDedup (pySplit (collapseWhitespace (specCollapseRuns text))))

/-- The claim's three-step reference transform, with step 1 collapsing runs
of identical characters of any kind. -/
def clean_repetitions_claimed (text : PyStr) : PyStr :=
  joinSpace (specDedup (pySplit (collapseWhitespace (refAnyCollapseRuns text))))

/-- The title detector as the spec's §4.3 enumerates it: restrict to page-1
spans with non-empty text, empty set gives the empty string; otherwise take
the maximum size, select the band within 0.5 of it, sort by ascending y,
join with spaces, clean repetitions, trim. -/
def detect_title_spec (blocks : List Block) : PyStr :=
  match ((blocks.filter (fun b => decide (b.page = 1 ∧ b.text ≠ []))).map Block.size).max? with
  | none => []
  | some m =>
    pyStrip (clean_repetitions (joinSpace
      ((sortByY ((blocks.filter (fun b => decide (b.page = 1 ∧ b.text ≠ []))).filter
        (fun b => decide (|b.size - m| < 0.5)))).map Block.text)))

/-- The heading-qualification conjunction exactly as the claim lists it:
non-empty TRIMMED text, no bullet start, short with the loosened bounds, not
a full sentence, and at least one case signal. -/
def claimHeadingOk (env : NlpEnv) (lang_code : String) (b : Block) : Bool :=
  !(pyStrip b.text).isEmpty &&
  !pyTruthy (starts_with_bullet b.text) &&
  is_short b.text 14 80 lang_code &&
  !is_full_sentence env b.text lang_code &&
  (is_all_caps b.text lang_code || is_title_case b.text lang_code ||
    decide (uppercase_ratio b.text lang_code > 0.5))

/-- The outline as the claim describes it: each span contributes an entry
exactly when the classifier assigns it a level and the qualification
conjunction holds, the entry being level, text and `span.page - 1`. -/
def claimOutline (env : NlpEnv) (blocks : List Block) (lang_code : String) : List HeadingEntry :=
  blocks.filterMap (fun b =>
    (heading_level b (compute_font_stats blocks)).bind (fun level =>
      if claimHeadingOk env lang_code b then
        some { level := level, text := b.text, page := b.page - 1 }
      else none))

/-- The fixed level table in its checking order H1, H2, H3. -/
def levelTable : List (HLevel × ℚ) :=
  [(HLevel.H1, 20.04), (HLevel.H2, 15.96), (HLevel.H3, 12.0)]

/-- No three consecutive identical word characters occur. -/
def noTriple : PyStr → Bool
  | a :: b :: c :: rest =>
    !(decide (a = b) && decide (b = c) && a.isWord) && noTriple (b :: c :: rest)
  | _ => true

/-- No two consecutive whitespace characters occur. -/
def noDoubleWs : PyStr → Bool
  | a :: b :: rest => !(a.isSpace && b.isSpace) && noDoubleWs (b :: rest)
  | _ => true

/-- The string holds no whitespace character. -/
def wsFree (s : PyStr) : Bool :=
  s.all (fun c => !c.isSpace)

/-- Shorthand for an uppercase letter. -/
def uc (n : Nat) : PChar := PChar.upper n

/-- Shorthand for a lowercase letter. -/
def lc (n : Nat) : PChar := PChar.lower n

/-- The string "I Am Here". -/
def strIAmHere : PyStr :=
  [uc 73, spaceChar, uc 65, lc 109, spaceChar, uc 72, lc 101, lc 114, lc 101]

/-- The string "Am Here". -/
def strAmHere : PyStr :=
  [uc 65, lc 109, spaceChar, uc 72, lc 101, lc 114, lc 101]

/-- The string "I AM HERE". -/
def strIAMHERE : PyStr :=
  [uc 73, spaceChar, uc 65, uc 77, spaceChar, uc 72, uc 69, uc 82, uc 69]

/-- The string "Reeeequest". -/
def strReeeequest : PyStr :=
  [uc 82, lc 101, lc 101, lc 101, lc 101, lc 113, lc 117, lc 101, lc 115, lc 116]

/-- The string "Request". -/
def strRequest : PyStr :=
  [uc 82, lc 101, lc 113, lc 117, lc 101, lc 115, lc 116]

/-- The string "Proposal". -/
def strProposal : PyStr :=
  [uc 80, lc 114, lc 111, lc 112, lc 111, lc 115, lc 97, lc 108]

/-- The string "Draft". -/
def strDraft : PyStr :=
  [uc 68, lc 114, lc 97, lc 102, lc 116]

/-- The string "Proposal Draft Proposal". -/
def strPDP : PyStr :=
  strProposal ++ spaceChar :: strDraft ++ spaceChar :: strProposal

/-- The string "!!!": three exclamation marks, none a word character. -/
def strBangs : PyStr :=
  [PChar.sym 33, PChar.sym 33, PChar.sym 33]

/-- A concrete block with the given text, size, page and y-coordinate. -/
def mkBlock (t : PyStr) (sz : ℚ) (pg : Int) (y : ℚ) : Block :=
  { text := t, font := "F", size := sz, flags := 0, bbox := (0, 0, 0, 0),
    page := pg, origin := (0, y) }

/-- A loader for which only the English model constructs. -/
def loadW : String → Except String Engine :=
  fun s => if s = "en_core_web_sm" then Except.ok { model := "en_core_web_sm" }
           else Except.error "no model"

theorem not_isEmpty_iff_ne_nil {α : Type} (l : List α) : (!l.isEmpty) = true ↔ l ≠ [] := by
  cases l <;> simp

/-- An alphabetic-token check passes exactly when the first character is
uppercase and the remainder satisfies Python's `islower`. -/
theorem titleTokenOk_iff (w : PyStr) (hw : pyIsAlphaStr w = true) :
    titleTokenOk w = true ↔
      (∀ c ∈ w.take 1, c.isUpper = true) ∧ pyIsLowerStr (w.drop 1) = true := by
  cases w with
  | nil => simp [pyIsAlphaStr] at hw
  | cons c rest => simp [titleTokenOk, List.take, List.drop, Bool.and_eq_true]

/-- C1 (corrected): the code returns FALSE on "I Am Here" because Python's
`""`.islower() is false, so a single-letter token never passes the strict
title-case test, contradicting the claim's asserted value `true`. -/
theorem C1_counterexample : is_title_case strIAmHere "en" = false := by decide

/-- C1 (amended): `is_title_case(text, "en")` is true iff the list of
whitespace-delimited alphabetic tokens is non-empty and every such token
has an uppercase first character and a remainder that itself satisfies
Python's `islower` (at least one cased character, all cased characters
lowercase) — so single-character tokens fail rather than passing trivially;
concretely "I Am Here" is rejected while "Am Here" is accepted and
"I AM HERE" is rejected. -/
theorem C1_title_case_characterization :
    (∀ text : PyStr, is_title_case text "en" = true ↔
      ((pySplit text).filter pyIsAlphaStr ≠ [] ∧
        ∀ w ∈ (pySplit text).filter pyIsAlphaStr,
          (∀ c ∈ w.take 1, c.isUpper = true) ∧ pyIsLowerStr (w.drop 1) = true)) ∧
    is_title_case strIAmHere "en" = false ∧
    is_title_case strAmHere "en" = true ∧
    is_title_case strIAMHERE "en" = false := by
  refine ⟨?_, by decide, by decide, by decide⟩
  intro text
  rw [is_title_case, if_neg (by decide : ¬(("en" : String) = "ja")), Bool.and_eq_true,
    not_isEmpty_iff_ne_nil, List.all_eq_true]
  constructor
  · rintro ⟨h1, h2⟩
    refine ⟨h1, fun w hw => ?_⟩
    exact (titleTokenOk_iff w (List.mem_filter.mp hw).2).mp (h2 w hw)
  · rintro ⟨h1, h2⟩
    refine ⟨h1, fun w hw => ?_⟩
    exact (titleTokenOk_iff w (List.mem_filter.mp hw).2).mpr (h2 w hw)

/-- C1 witness: the characterization applied at the concrete string
"Am Here". -/
theorem C1_title_case_witness : is_title_case strAmHere "en" = true :=
  (C1_title_case_characterization.1 strAmHere).mpr (by decide)

/-- C7: for the caseless-script language code "ja" the case heuristics are
unconditionally vacuous: `is_all_caps` and `is_title_case` return false and
`uppercase_ratio` returns 0, whatever the text. -/
theorem C7_caseless_ja :
    ∀ text : PyStr,
      is_all_caps text "ja" = false ∧ is_title_case text "ja" = false ∧
        uppercase_ratio text "ja" = 0 := by
  intro text
  refine ⟨?_, ?_, ?_⟩ <;> simp [is_all_caps, is_title_case, uppercase_ratio]

/-- C9: `detect_title` ignores its `lang_code` parameter, so title detection
is independent of the language code. -/
theorem C9_detect_title_lang_invariant :
    ∀ (blocks : List Block) (l1 l2 : String),
      detect_title blocks l1 = detect_title blocks l2 :=
  fun _ _ _ => rfl

/-- C10: `starts_with_bullet` is total: on the empty string the guard short
circuits, the function returns the empty string itself (a falsy value, not
the boolean False), and on any non-empty string it returns the boolean of
whether the first character is in the fixed bullet set. -/
theorem C10_starts_with_bullet_total :
    starts_with_bullet [] = Sum.inl [] ∧
    pyTruthy (starts_with_bullet []) = false ∧
    ∀ (c : PChar) (rest : PyStr),
      starts_with_bullet (c :: rest) = Sum.inr (decide (c ∈ bullets)) :=
  ⟨rfl, rfl, fun _ _ => rfl⟩

/-- C4: the font-to-level classifier returns the first entry of the fixed
table, checked in the order H1, H2, H3, whose size matches within the
strict 0.1 tolerance, and no level otherwise; a size of 20.09 classifies as
H1 and a size of 20.2 as no level. -/
theorem C4_heading_level_table :
    (∀ (b : Block) (blocks : List Block),
      heading_level b (compute_font_stats blocks) =
        (levelTable.find? (fun p => decide (|b.size - p.2| < 0.1))).map Prod.fst) ∧
    heading_level (mkBlock [] 20.09 1 0) (compute_font_stats []) = some HLevel.H1 ∧
    heading_level (mkBlock [] 20.2 1 0) (compute_font_stats []) = none := by
  have e1 : |(20.09 : ℚ) - 20.04| < 0.1 := by
    rw [abs_lt]
    constructor <;> norm_num
  have e2 : ¬|(20.2 : ℚ) - 20.04| < 0.1 := by
    rw [abs_lt]
    push_neg
    intro h
    norm_num
  have e3 : ¬|(20.2 : ℚ) - 15.96| < 0.1 := by
    rw [abs_lt]
    push_neg
    intro h
    norm_num
  have e4 : ¬|(20.2 : ℚ) - 12.0| < 0.1 := by
    rw [abs_lt]
    push_neg
    intro h
    norm_num
  refine ⟨?_, by simp [heading_level, compute_font_stats, mkBlock, e1],
    by simp [heading_level, compute_font_stats, mkBlock, e2, e3, e4]⟩
  intro b blocks
  by_cases h1 : |b.size - (20.04 : ℚ)| < 0.1
  · simp [heading_level, compute_font_stats, levelTable, h1]
  · by_cases h2 : |b.size - (15.96 : ℚ)| < 0.1
    · simp [heading_level, compute_font_stats, levelTable, h1, h2]
    · by_cases h3 : |b.size - (12.0 : ℚ)| < 0.1
      · simp [heading_level, compute_font_stats, levelTable, h1, h2, h3]
      · simp [heading_level, compute_font_stats, levelTable, h1, h2, h3]

/-- C8 (corrected): when constructing even the default English engine fails,
`get_nlp` propagates the loader's error instead of returning an engine, so
the resolver is not unconditionally error-free: with an always-failing
loader the unsupported code "fr" yields an error. -/
theorem C8_counterexample :
    get_nlp (fun _ => Except.error "load failure") "fr" = Except.error "load failure" := by
  rfl

/-- C8 (amended): provided the default English model loads, language
resolution never propagates an error: unsupported codes resolve to the
default engine, any resolution yields SOME engine (a failure of the
requested model falls back to the default), and a language-identifier
failure yields the default code "en" instead of raising. -/
theorem C8_fallback :
    ∀ (load : String → Except String Engine) (e : Engine),
      load "en_core_web_sm" = Except.ok e →
      ((∀ lang : String, LANG_MODELS.find? (fun p => p.1 == lang) = none →
          get_nlp load lang = Except.ok e) ∧
        (∀ lang : String, ∃ e2 : Engine, get_nlp load lang = Except.ok e2) ∧
        (∀ (det : PyStr → Except String String) (blocks : List Block) (msg : String),
          det (langSample blocks) = Except.error msg → detect_language det blocks = "en")) := by
  intro load e he
  refine ⟨?_, ?_, ?_⟩
  · intro lang hfind
    simp [get_nlp, dictGetD, hfind, he]
  · intro lang
    cases h : load (dictGetD LANG_MODELS lang "en_core_web_sm") with
    | ok e2 => exact ⟨e2, by simp [get_nlp, h]⟩
    | error msg => exact ⟨e, by simp [get_nlp, h, he]⟩
  · intro det blocks msg h
    simp [detect_language, h]

/-- C8 witness: the amended statement applied with a loader for which only
the English model constructs, at the unsupported code "fr", and with a
failing detector on an empty block list. -/
theorem C8_fallback_witness :
    get_nlp loadW "fr" = Except.ok { model := "en_core_web_sm" } ∧
    detect_language (fun _ => Except.error "noise") [] = "en" := by
  have h := C8_fallback loadW { model := "en_core_web_sm" } (by rfl)
  exact ⟨h.1 "fr" (by rfl), h.2.2 (fun _ => Except.error "noise") [] "noise" (by rfl)⟩

theorem pySplit_nil : pySplit [] = [] := rfl

theorem pySplit_cons_space (c : PChar) (xs : PyStr) (h : c.isSpace = true) :
    pySplit (c :: xs) = pySplit xs := by
  simp [pySplit, pySplitAux, h]

theorem pySplitAux_acc (xs : PyStr) : ∀ acc : PyStr, acc ≠ [] →
    pySplitAux acc xs =
      (acc.reverse ++ xs.takeWhile (fun d => !d.isSpace)) ::
        pySplit (xs.dropWhile (fun d => !d.isSpace)) := by
  induction xs with
  | nil =>
    intro acc hacc
    simp [pySplitAux, pySplit, List.isEmpty_iff, hacc]
  | cons x xs ih =>
    intro acc hacc
    by_cases hx : x.isSpace
    · have hpred : (fun d => !d.isSpace) x = false := by simp [hx]
      simp only [pySplitAux, hx, if_true, List.isEmpty_iff, hacc, if_neg hacc,
        List.takeWhile_cons, hpred, List.dropWhile_cons]
      simp [pySplit, hacc, List.isEmpty_iff, pySplitAux, hx]
    · have hpred : (fun d => !d.isSpace) x = true := by simp [hx]
      have hx' : x.isSpace = false := by simp [hx]
      simp only [pySplitAux, hx', List.takeWhile_cons, hpred, List.dropWhile_cons,
        Bool.false_eq_true, if_false, if_true]
      rw [ih (x :: acc) (by simp)]
      simp

theorem pySplit_cons_nonspace (c : PChar) (xs : PyStr) (h : c.isSpace = false) :
    pySplit (c :: xs) =
      (c :: xs.takeWhile (fun d => !d.isSpace)) ::
        pySplit (xs.dropWhile (fun d => !d.isSpace)) := by
  have := pySplitAux_acc xs [c] (by simp)
  simp only [List.reverse_cons, List.reverse_nil, List.nil_append, List.cons_append] at this
  simp only [pySplit, pySplitAux, h, Bool.false_eq_true, if_false]
  simpa using this

theorem ccrEmit_replicate (c : PChar) (n : Nat) :
    ccrEmit c n = List.replicate (if c.isWord && decide (3 ≤ n) then 1 else n) c := by
  unfold ccrEmit
  split <;> simp

theorem ccrAux_spec (xs : PyStr) : ∀ (c : PChar) (n : Nat),
    ccrAux c n xs = ccrEmit c (n + runLen c xs) ++ collapseCharRuns (runRest c xs) := by
  induction xs with
  | nil => intro c n; simp [ccrAux, runLen, runRest, collapseCharRuns]
  | cons x xs ih =>
    intro c n
    by_cases hx : x = c
    · subst hx
      have h1 : runLen x (x :: xs) = runLen x xs + 1 := by
        simp [runLen, List.takeWhile_cons]
      have h2 : runRest x (x :: xs) = runRest x xs := by
        simp [runRest, List.dropWhile_cons]
      have h3 : n + 1 + runLen x xs = n + (runLen x xs + 1) := by omega
      rw [show ccrAux x n (x :: xs) = ccrAux x (n + 1) xs from by simp [ccrAux], ih, h1, h2, h3]
    · have h1 : runLen c (x :: xs) = 0 := by
        simp [runLen, List.takeWhile_cons, hx]
      have h2 : runRest c (x :: xs) = x :: xs := by
        simp [runRest, List.dropWhile_cons, hx]
      rw [show ccrAux c n (x :: xs) = ccrEmit c n ++ ccrAux x 1 xs from by simp [ccrAux, hx],
        h1, h2, Nat.add_zero]
      rfl

theorem ccr_cons (c : PChar) (xs : PyStr) :
    collapseCharRuns (c :: xs) =
      ccrEmit c (runLen c xs + 1) ++ collapseCharRuns (runRest c xs) := by
  show ccrAux c 1 xs = _
  rw [ccrAux_spec]
  have : 1 + runLen c xs = runLen c xs + 1 := by omega
  rw [this]

theorem rleAux_spec (xs : PyStr) : ∀ (c : PChar) (n : Nat),
    rleAux c n xs = (c, n + runLen c xs) :: rleEncode (runRest c xs) := by
  induction xs with
  | nil => intro c n; simp [rleAux, runLen, runRest, rleEncode]
  | cons x xs ih =>
    intro c n
    by_cases hx : x = c
    · subst hx
      have h1 : runLen x (x :: xs) = runLen x xs + 1 := by
        simp [runLen, List.takeWhile_cons]
      have h2 : runRest x (x :: xs) = runRest x xs := by
        simp [runRest, List.dropWhile_cons]
      have h3 : n + 1 + runLen x xs = n + (runLen x xs + 1) := by omega
      rw [show rleAux x n (x :: xs) = rleAux x (n + 1) xs from by simp [rleAux], ih, h1, h2, h3]
    · have h1 : runLen c (x :: xs) = 0 := by
        simp [runLen, List.takeWhile_cons, hx]
      have h2 : runRest c (x :: xs) = x :: xs := by
        simp [runRest, List.dropWhile_cons, hx]
      rw [show rleAux c n (x :: xs) = (c, n) :: rleAux x 1 xs from by simp [rleAux, hx],
        h1, h2, Nat.add_zero]
      rfl

theorem rle_cons (c : PChar) (xs : PyStr) :
    rleEncode (c :: xs) = (c, runLen c xs + 1) :: rleEncode (runRest c xs) := by
  show rleAux c 1 xs = _
  rw [rleAux_spec]
  have : 1 + runLen c xs = runLen c xs + 1 := by omega
  rw [this]

theorem cwAux_some (xs : PyStr) : ∀ (w : PChar) (many : Bool),
    cwAux (some (w, many)) xs =
      (if many || !(xs.takeWhile PChar.isSpace).isEmpty then [spaceChar] else [w]) ++
        cwAux none (xs.dropWhile PChar.isSpace) := by
  induction xs with
  | nil => intro w many; cases many <;> simp [cwAux]
  | cons x xs ih =>
    intro w many
    by_cases hx : x.isSpace
    · simp only [cwAux, hx, if_true, ih, List.takeWhile_cons, List.dropWhile_cons]
      simp
    · have hx' : x.isSpace = false := by simp [hx]
      simp only [cwAux, hx', Bool.false_eq_true, if_false, List.takeWhile_cons,
        List.dropWhile_cons]
      cases many <;> simp [cwAux, hx']

theorem cw_cons_space (c : PChar) (xs : PyStr) (h : c.isSpace = true) :
    collapseWhitespace (c :: xs) =
      (if (xs.takeWhile PChar.isSpace).isEmpty then [c] else [spaceChar]) ++
        collapseWhitespace (xs.dropWhile PChar.isSpace) := by
  show cwAux none (c :: xs) = _
  simp only [cwAux, h, if_true]
  rw [cwAux_some]
  cases hh : (xs.takeWhile PChar.isSpace).isEmpty <;> simp [collapseWhitespace]

theorem cw_cons_nonspace (c : PChar) (xs : PyStr) (h : c.isSpace = false) :
    collapseWhitespace (c :: xs) = c :: collapseWhitespace xs := by
  show cwAux none (c :: xs) = _
  simp [cwAux, h, collapseWhitespace]

theorem alpha_not_space (c : PChar) (h : c.isAlpha = true) : c.isSpace = false := by
  cases c <;> simp_all [PChar.isAlpha, PChar.isSpace]

theorem mem_dropWhile_of_not_space (s : PyStr) (c : PChar) (hc : c ∈ s)
    (h : c.isSpace = false) : c ∈ s.dropWhile PChar.isSpace := by
  induction s with
  | nil => simp at hc
  | cons a t ih =>
    by_cases ha : a.isSpace = true
    · rw [List.dropWhile_cons, if_pos ha]
      rcases List.mem_cons.mp hc with h1 | h1
      · subst h1
        rw [ha] at h
        simp at h
      · exact ih h1
    · rw [List.dropWhile_cons, if_neg ha]
      exact hc

theorem pyStrip_ne_nil_of_mem (s : PyStr) (c : PChar) (hc : c ∈ s)
    (h : c.isSpace = false) : (pyStrip s).isEmpty = false := by
  have h1 : c ∈ s.dropWhile PChar.isSpace := mem_dropWhile_of_not_space s c hc h
  have h2 : c ∈ (s.dropWhile PChar.isSpace).reverse := List.mem_reverse.mpr h1
  have h3 : c ∈ (s.dropWhile PChar.isSpace).reverse.dropWhile PChar.isSpace :=
    mem_dropWhile_of_not_space _ c h2 h
  have h4 : c ∈ pyStrip s := List.mem_reverse.mpr h3
  cases hps : pyStrip s with
  | nil =>
    rw [hps] at h4
    simp at h4
  | cons _ _ => rfl

theorem pySplit_token_facts :
    ∀ (n : Nat) (s : PyStr), s.length ≤ n → ∀ t ∈ pySplit s,
      t ≠ [] ∧ wsFree t = true ∧ t <:+: s := by
  intro n
  induction n with
  | zero =>
    intro s hs t ht
    have hnil : s = [] := List.length_eq_zero.mp (Nat.le_zero.mp hs)
    subst hnil
    simp [pySplit_nil] at ht
  | succ n IH =>
    intro s hs t ht
    cases s with
    | nil => simp [pySplit_nil] at ht
    | cons c xs =>
      by_cases hc : c.isSpace = true
      · rw [pySplit_cons_space c xs hc] at ht
        have hlen : xs.length ≤ n := by
          simp only [List.length_cons] at hs
          omega
        obtain ⟨h1, h2, h3⟩ := IH xs hlen t ht
        exact ⟨h1, h2, List.infix_cons h3⟩
      · have hc' : c.isSpace = false := by
          simpa using hc
        rw [pySplit_cons_nonspace c xs hc'] at ht
        rcases List.mem_cons.mp ht with h1 | h1
        · subst h1
          refine ⟨by simp, ?_, ?_⟩
          · simp only [wsFree, List.all_cons, Bool.and_eq_true]
            refine ⟨by simp [hc'], ?_⟩
            exact List.all_eq_true.mpr fun d hd =>
              List.mem_takeWhile_imp (p := fun d => !d.isSpace) (l := xs) hd
          · refine List.IsPrefix.isInfix ⟨xs.dropWhile (fun d => !d.isSpace), ?_⟩
            simp [List.cons_append, List.takeWhile_append_dropWhile]
        · have hlen : (xs.dropWhile (fun d => !d.isSpace)).length ≤ n := by
            have hle := (List.dropWhile_suffix (l := xs) (fun d => !d.isSpace)).length_le
            simp only [List.length_cons] at hs
            omega
          obtain ⟨h1, h2, h3⟩ := IH _ hlen t h1
          have h4 : t <:+: xs := h3.trans (List.dropWhile_suffix _).isInfix
          exact ⟨h1, h2, List.infix_cons h4⟩

theorem pySplit_mem (s t : PyStr) (ht : t ∈ pySplit s) :
    t ≠ [] ∧ wsFree t = true ∧ t <:+: s :=
  pySplit_token_facts s.length s le_rfl t ht

theorem signal_has_alpha (t : PyStr) (lang : String)
    (h : (is_all_caps t lang || is_title_case t lang ||
      decide (uppercase_ratio t lang > 0.5)) = true) :
    ∃ c ∈ t, c.isAlpha = true := by
  by_cases hja : lang = "ja"
  · rw [is_all_caps, if_pos hja, is_title_case, if_pos hja, uppercase_ratio, if_pos hja] at h
    norm_num at h
  · rw [Bool.or_eq_true, Bool.or_eq_true] at h
    rcases h with (hA | hT) | h2
    · rw [is_all_caps, if_neg hja, Bool.and_eq_true, not_isEmpty_iff_ne_nil] at hA
      obtain ⟨c, hc⟩ := List.exists_mem_of_ne_nil _ hA.1
      obtain ⟨hct, hca⟩ := List.mem_filter.mp hc
      exact ⟨c, hct, hca⟩
    · rw [is_title_case, if_neg hja, Bool.and_eq_true, not_isEmpty_iff_ne_nil] at hT
      obtain ⟨w, hw⟩ := List.exists_mem_of_ne_nil _ hT.1
      obtain ⟨hws, hwa⟩ := List.mem_filter.mp hw
      rw [pyIsAlphaStr, Bool.and_eq_true, not_isEmpty_iff_ne_nil] at hwa
      obtain ⟨c, hcw⟩ := List.exists_mem_of_ne_nil _ hwa.1
      have hca : c.isAlpha = true := List.all_eq_true.mp hwa.2 c hcw
      have hsub : w <:+: t := (pySplit_mem t w hws).2.2
      exact ⟨c, hsub.subset hcw, hca⟩
    · have hgt := of_decide_eq_true h2
      by_cases hemp : (t.filter PChar.isAlpha).isEmpty = true
      · rw [uppercase_ratio, if_neg hja, if_pos hemp] at hgt
        norm_num at hgt
      · have hne : t.filter PChar.isAlpha ≠ [] := by
          cases hfa : t.filter PChar.isAlpha with
          | nil => rw [hfa] at hemp; simp at hemp
          | cons _ _ => simp
        obtain ⟨c, hc⟩ := List.exists_mem_of_ne_nil _ hne
        obtain ⟨hct, hca⟩ := List.mem_filter.mp hc
        exact ⟨c, hct, hca⟩

theorem if_chain (A F S : Bool) :
    (if A = true then false else if F = true then false else if S = true then true else false) =
      (!A && !F && S) := by
  cases A <;> cases F <;> cases S <;> rfl

theorem candidate_reduced (env : NlpEnv) (b : Block) (lang : String) :
    is_heading_candidate env b lang =
      (!(b.text.isEmpty || pyTruthy (starts_with_bullet b.text) ||
          !is_short b.text 14 80 lang) &&
        !is_full_sentence env b.text lang &&
        (is_all_caps b.text lang || is_title_case b.text lang ||
          decide (uppercase_ratio b.text lang > 0.5))) := by
  rw [is_heading_candidate]
  exact if_chain _ _ _

theorem candidate_eq (env : NlpEnv) (b : Block) (lang : String) :
    is_heading_candidate env b lang = claimHeadingOk env lang b := by
  rw [candidate_reduced, claimHeadingOk]
  by_cases hsig : (is_all_caps b.text lang || is_title_case b.text lang ||
      decide (uppercase_ratio b.text lang > 0.5)) = true
  · obtain ⟨c, hct, hca⟩ := signal_has_alpha b.text lang hsig
    have hsp : c.isSpace = false := alpha_not_space c hca
    have hstrip : (pyStrip b.text).isEmpty = false := pyStrip_ne_nil_of_mem _ c hct hsp
    have htext : b.text.isEmpty = false := by
      cases hbt : b.text with
      | nil =>
        rw [hbt] at hct
        simp at hct
      | cons _ _ => rfl
    rw [hsig, htext, hstrip]
    cases pyTruthy (starts_with_bullet b.text) <;>
      cases is_short b.text 14 80 lang <;>
        cases is_full_sentence env b.text lang <;> rfl
  · have hsig' : (is_all_caps b.text lang || is_title_case b.text lang ||
        decide (uppercase_ratio b.text lang > 0.5)) = false := by
      simpa using hsig
    rw [hsig']
    cases (pyStrip b.text).isEmpty <;>
      cases b.text.isEmpty <;>
        cases pyTruthy (starts_with_bullet b.text) <;>
          cases is_short b.text 14 80 lang <;>
            cases is_full_sentence env b.text lang <;> rfl

set_option maxHeartbeats 1600000 in
theorem outlineLoop_filterMap (env : NlpEnv) (lang : String) (fs : FontMap) :
    ∀ bs : List Block, outlineLoop env lang fs bs = bs.filterMap (fun b =>
      (heading_level b fs).bind (fun level =>
        if claimHeadingOk env lang b then
          some { level := level, text := b.text, page := b.page - 1 } else none)) := by
  intro bs
  induction bs with
  | nil => rfl
  | cons b bs ih =>
    rw [List.filterMap_cons]
    cases hl : heading_level b fs with
    | none =>
      simp [outlineLoop, hl, ih]
    | some lv =>
      simp only [outlineLoop, hl, Option.some_bind, ih]
      rw [← candidate_eq env b lang]
      cases hc : is_heading_candidate env b lang <;> simp [hc]

/-- C2: a span is emitted into the outline exactly when its trimmed text is
non-empty, it does not start with a bullet glyph, it is short with
maxWords 14 and maxChars 80, it is not a full sentence, at least one case
signal holds, and the font-to-level classifier assigns it a level; the
emitted entry is its level, its text, and `span.page - 1`. -/
theorem C2_outline_characterization :
    ∀ (env : NlpEnv) (blocks : List Block) (lang_code : String),
      extract_outline env blocks lang_code = claimOutline env blocks lang_code := by
  intro env blocks lang
  exact outlineLoop_filterMap env lang (compute_font_stats blocks) blocks

theorem max?_cons_foldl (x : ℚ) (xs : List ℚ) : (x :: xs).max? = some (xs.foldl max x) := rfl

/-- C6: the title detector restricts to page-1 spans with non-empty text,
returns the empty string when there are none, and otherwise selects the
spans within 0.5 of the maximum size, sorts them stably by ascending y,
joins their texts with single spaces, cleans repetitions and trims — the
source function equals the spec's step-by-step description. -/
theorem C6_detect_title_eq_spec :
    ∀ (blocks : List Block) (lang_code : String),
      detect_title blocks lang_code = detect_title_spec blocks := by
  intro blocks lang
  have hfilter : blocks.filter (fun b => decide (b.page = 1) && !b.text.isEmpty) =
      blocks.filter (fun b => decide (b.page = 1 ∧ b.text ≠ [])) := by
    apply List.filter_congr
    intro b hb
    by_cases hp : b.page = 1
    · cases hbt : b.text <;> simp [hp]
    · simp [hp]
  unfold detect_title detect_title_spec
  rw [hfilter]
  cases hfp : blocks.filter (fun b => decide (b.page = 1 ∧ b.text ≠ [])) with
  | nil => rfl
  | cons b0 rest =>
    rw [List.map_cons, max?_cons_foldl]
    rfl

theorem runDecomp (c : PChar) (xs : PyStr) :
    List.replicate (runLen c xs) c ++ runRest c xs = xs := by
  have hmem : ∀ b ∈ xs.takeWhile (fun d => decide (d = c)), b = c := by
    intro b hb
    exact of_decide_eq_true
      (List.mem_takeWhile_imp (p := fun d => decide (d = c)) (l := xs) hb)
  have h1 : xs.takeWhile (fun d => decide (d = c)) =
      List.replicate (xs.takeWhile (fun d => decide (d = c))).length c :=
    List.eq_replicate_of_mem hmem
  rw [runLen, runRest]
  conv_lhs => rw [← h1]
  exact List.takeWhile_append_dropWhile _ _

theorem runRest_head_ne (c : PChar) (xs : PyStr) :
    ∀ z zs, runRest c xs = z :: zs → z ≠ c := by
  induction xs with
  | nil => intro z zs h; simp [runRest] at h
  | cons x xs ih =>
    intro z zs h
    by_cases hx : x = c
    · rw [runRest, List.dropWhile_cons, if_pos (by simp [hx])] at h
      exact ih z zs h
    · rw [runRest, List.dropWhile_cons, if_neg (by simp [hx])] at h
      cases h
      exact hx

theorem dropWhile_head_not (q : PChar → Bool) (l : PyStr) :
    ∀ z zs, l.dropWhile q = z :: zs → q z = false := by
  induction l with
  | nil => intro z zs h; simp at h
  | cons a t ih =>
    intro z zs h
    by_cases ha : q a = true
    · rw [List.dropWhile_cons, if_pos ha] at h
      exact ih z zs h
    · rw [List.dropWhile_cons, if_neg ha] at h
      cases h
      simpa using ha

theorem takeWhile_all (q : PChar → Bool) (l : PyStr) (h : ∀ a ∈ l, q a = true) :
    l.takeWhile q = l := by
  induction l with
  | nil => rfl
  | cons a t ih =>
    rw [List.takeWhile_cons, if_pos (h a (by simp))]
    rw [ih (fun a ha => h a (by simp [ha]))]

theorem dropWhile_all (q : PChar → Bool) (l : PyStr) (h : ∀ a ∈ l, q a = true) :
    l.dropWhile q = [] := by
  induction l with
  | nil => rfl
  | cons a t ih =>
    rw [List.dropWhile_cons, if_pos (h a (by simp))]
    exact ih (fun a ha => h a (by simp [ha]))

theorem takeWhile_append_of_all (q : PChar → Bool) (p r : PyStr)
    (h : ∀ a ∈ p, q a = true) : (p ++ r).takeWhile q = p ++ r.takeWhile q := by
  induction p with
  | nil => simp
  | cons a t ih =>
    rw [List.cons_append, List.takeWhile_cons, if_pos (h a (by simp))]
    rw [ih (fun a ha => h a (by simp [ha]))]
    rfl

theorem dropWhile_append_of_all (q : PChar → Bool) (p r : PyStr)
    (h : ∀ a ∈ p, q a = true) : (p ++ r).dropWhile q = r.dropWhile q := by
  induction p with
  | nil => simp
  | cons a t ih =>
    rw [List.cons_append, List.dropWhile_cons, if_pos (h a (by simp))]
    exact ih (fun a ha => h a (by simp [ha]))

theorem getLast?_mem_self {α : Type} (l : List α) (x : α) (h : l.getLast? = some x) :
    x ∈ l := by
  induction l with
  | nil => simp at h
  | cons a t ih =>
    cases t with
    | nil =>
      simp only [List.getLast?_singleton, Option.some.injEq] at h
      simp [h]
    | cons b t2 =>
      rw [List.getLast?_cons_cons] at h
      exact List.mem_cons_of_mem a (ih h)

theorem noTriple_tail (a : PChar) (l : PyStr) (h : noTriple (a :: l) = true) :
    noTriple l = true := by
  cases l with
  | nil => rfl
  | cons b t =>
    cases t with
    | nil => rfl
    | cons c t2 =>
      rw [noTriple, Bool.and_eq_true] at h
      exact h.2

theorem noTriple_append_right (xs ys : PyStr) (h : noTriple (xs ++ ys) = true) :
    noTriple ys = true := by
  induction xs with
  | nil => simpa using h
  | cons a t ih =>
    rw [List.cons_append] at h
    exact ih (noTriple_tail _ _ h)

theorem noTriple_append_left (xs ys : PyStr) (h : noTriple (xs ++ ys) = true) :
    noTriple xs = true := by
  induction xs with
  | nil => rfl
  | cons a t ih =>
    cases t with
    | nil => rfl
    | cons b t2 =>
      cases t2 with
      | nil => rfl
      | cons c t3 =>
        rw [noTriple, Bool.and_eq_true]
        simp only [List.cons_append] at h
        rw [noTriple, Bool.and_eq_true] at h
        refine ⟨h.1, ?_⟩
        have := ih (by simpa [List.cons_append] using h.2)
        exact this

theorem noTriple_infix (t u : PyStr) (hinf : t <:+: u) (h : noTriple u = true) :
    noTriple t = true := by
  obtain ⟨s1, s2, rfl⟩ := hinf
  have h1 : noTriple (t ++ s2) = true := noTriple_append_right s1 _ (by
    simpa [List.append_assoc] using h)
  exact noTriple_append_left t s2 h1

theorem noTriple_replicate (c : PChar) :
    ∀ n : Nat, (n ≤ 2 ∨ c.isWord = false) → noTriple (List.replicate n c) = true := by
  intro n
  induction n with
  | zero => intro h; rfl
  | succ n ih =>
    intro h
    cases n with
    | zero => rfl
    | succ m =>
      cases m with
      | zero => rfl
      | succ k =>
        have hw : c.isWord = false := by
          rcases h with h | h
          · omega
          · exact h
        have hrep : List.replicate (k + 1 + 1 + 1) c =
            c :: c :: c :: List.replicate k c := by
          simp [List.replicate_succ]
        rw [hrep, noTriple, Bool.and_eq_true]
        constructor
        · simp [hw]
        · have := ih (Or.inr hw)
          simpa [List.replicate_succ] using this

theorem noTriple_cons_of_head_ne (a : PChar) (l : PyStr)
    (hne : ∀ z, l.head? = some z → z ≠ a) (h : noTriple l = true) :
    noTriple (a :: l) = true := by
  cases l with
  | nil => rfl
  | cons b t =>
    cases t with
    | nil => rfl
    | cons c t2 =>
      rw [noTriple, Bool.and_eq_true]
      refine ⟨?_, h⟩
      have hb : b ≠ a := hne b rfl
      simp
      exact Or.inl (Or.inl fun hab => hb hab.symm)

theorem glueNoTriple (ys : PyStr) (y : PChar) :
    ∀ xs : PyStr, noTriple xs = true → noTriple (y :: ys) = true →
      xs.getLast? ≠ some y → noTriple (xs ++ y :: ys) = true := by
  intro xs
  induction xs with
  | nil =>
    intro h1 h2 h3
    simpa using h2
  | cons a t ih =>
    intro h1 h2 h3
    cases t with
    | nil =>
      have hay : a ≠ y := by
        intro he
        exact h3 (by simp [he])
      rw [List.cons_append, List.nil_append]
      cases ys with
      | nil =>
        simp [noTriple]
      | cons z t2 =>
        rw [noTriple, Bool.and_eq_true]
        exact ⟨by simp [hay], h2⟩
    | cons b t2 =>
      have hlast : (b :: t2).getLast? ≠ some y := by
        rw [← List.getLast?_cons_cons (a := a)]
        exact h3
      have hrec : noTriple ((b :: t2) ++ y :: ys) = true :=
        ih (noTriple_tail _ _ h1) h2 hlast
      cases t2 with
      | nil =>
        have hby : b ≠ y := by
          intro he
          exact hlast (by simp [he])
        rw [List.cons_append, List.cons_append, List.nil_append, noTriple, Bool.and_eq_true]
        refine ⟨?_, by simpa using hrec⟩
        simp
        exact Or.inl (Or.inr fun hbyy => hby hbyy)
      | cons c t3 =>
        rw [noTriple, Bool.and_eq_true] at h1
        simp only [List.cons_append]
        rw [noTriple, Bool.and_eq_true]
        refine ⟨h1.1, ?_⟩
        simpa [List.cons_append] using hrec

theorem collapse_head (c : PChar) (xs : PyStr) :
    ∃ w, collapseCharRuns (c :: xs) = c :: w := by
  rw [ccr_cons, ccrEmit]
  by_cases h : (c.isWord && decide (3 ≤ runLen c xs + 1)) = true
  · rw [if_pos h]
    exact ⟨collapseCharRuns (runRest c xs), rfl⟩
  · rw [if_neg h]
    refine ⟨List.replicate (runLen c xs) c ++ collapseCharRuns (runRest c xs), ?_⟩
    simp [List.replicate_succ]

theorem ccrEmit_count_ok (c : PChar) (k : Nat) :
    (if c.isWord && decide (3 ≤ k) then 1 else k) ≤ 2 ∨ c.isWord = false := by
  by_cases hw : c.isWord = true
  · by_cases h3 : 3 ≤ k
    · left
      simp [hw, h3]
    · left
      rw [if_neg (by simp [h3])]
      omega
  · right
    simpa using hw

theorem noTriple_collapse_bounded :
    ∀ (n : Nat) (s : PyStr), s.length ≤ n → noTriple (collapseCharRuns s) = true := by
  intro n
  induction n with
  | zero =>
    intro s hs
    have hnil : s = [] := List.length_eq_zero.mp (Nat.le_zero.mp hs)
    subst hnil
    rfl
  | succ n IH =>
    intro s hs
    cases s with
    | nil => rfl
    | cons c xs =>
      rw [ccr_cons, ccrEmit_replicate]
      have hmok := ccrEmit_count_ok c (runLen c xs + 1)
      cases hr : runRest c xs with
      | nil =>
        simp only [collapseCharRuns, List.append_nil]
        exact noTriple_replicate c _ hmok
      | cons z zs =>
        have hz : z ≠ c := runRest_head_ne c xs z zs hr
        obtain ⟨w, hw2⟩ := collapse_head z zs
        have hnt : noTriple (collapseCharRuns (z :: zs)) = true := by
          apply IH
          have h1 : (z :: zs).length ≤ xs.length := by
            rw [← hr]
            exact (List.dropWhile_suffix _).length_le
          simp only [List.length_cons] at hs h1 ⊢
          omega
        rw [hw2]
        rw [hw2] at hnt
        apply glueNoTriple
        · exact noTriple_replicate c _ hmok
        · exact hnt
        · have hM : (if (c.isWord && decide (3 ≤ runLen c xs + 1)) = true then 1
              else runLen c xs + 1) ≠ 0 := by
            split <;> omega
          rw [List.getLast?_replicate, if_neg hM]
          intro hh
          have hcz : c = z := by injection hh
          exact hz hcz.symm

theorem noTriple_collapse (s : PyStr) : noTriple (collapseCharRuns s) = true :=
  noTriple_collapse_bounded s.length s le_rfl

theorem collapse_id_bounded :
    ∀ (n : Nat) (s : PyStr), s.length ≤ n → noTriple s = true →
      collapseCharRuns s = s := by
  intro n
  induction n with
  | zero =>
    intro s hs _
    have hnil : s = [] := List.length_eq_zero.mp (Nat.le_zero.mp hs)
    subst hnil
    rfl
  | succ n IH =>
    intro s hs hnt
    cases s with
    | nil => rfl
    | cons c xs =>
      have hd := runDecomp c xs
      have hcond : (c.isWord && decide (3 ≤ runLen c xs + 1)) = false := by
        by_cases hw : c.isWord = true
        · by_cases h2 : 2 ≤ runLen c xs
          · exfalso
            obtain ⟨k, hk⟩ : ∃ k, runLen c xs = k + 2 := ⟨runLen c xs - 2, by omega⟩
            rw [hk] at hd
            have hxs : xs = c :: c :: (List.replicate k c ++ runRest c xs) := by
              conv_lhs => rw [← hd]
              simp [List.replicate_succ]
            rw [hxs, noTriple, Bool.and_eq_true] at hnt
            have hwin := hnt.1
            simp [hw] at hwin
          · simp only [hw, Bool.true_and, decide_eq_false_iff_not]
            omega
        · have hwf : c.isWord = false := by simpa using hw
          simp [hwf]
      rw [ccr_cons, ccrEmit, hcond]
      simp only [Bool.false_eq_true, if_false]
      have hrnt : noTriple (runRest c xs) = true := by
        have h1 : noTriple xs = true := noTriple_tail _ _ hnt
        rw [← hd] at h1
        exact noTriple_append_right _ _ h1
      have hrlen : (runRest c xs).length ≤ n := by
        have hle : (runRest c xs).length ≤ xs.length :=
          (List.dropWhile_suffix _).length_le
        simp only [List.length_cons] at hs
        omega
      rw [IH _ hrlen hrnt, List.replicate_succ, List.cons_append, hd]

theorem collapse_id (s : PyStr) (h : noTriple s = true) : collapseCharRuns s = s :=
  collapse_id_bounded s.length s le_rfl h

theorem rleDecode_cons (p : PChar × Nat) (ps : List (PChar × Nat)) :
    rleDecode (p :: ps) = List.replicate p.2 p.1 ++ rleDecode ps := rfl

theorem collapse_eq_spec_bounded :
    ∀ (n : Nat) (s : PyStr), s.length ≤ n →
      collapseCharRuns s = specCollapseRuns s := by
  intro n
  induction n with
  | zero =>
    intro s hs
    have hnil : s = [] := List.length_eq_zero.mp (Nat.le_zero.mp hs)
    subst hnil
    rfl
  | succ n IH =>
    intro s hs
    cases s with
    | nil => rfl
    | cons c xs =>
      have hrlen : (runRest c xs).length ≤ n := by
        have hle : (runRest c xs).length ≤ xs.length :=
          (List.dropWhile_suffix _).length_le
        simp only [List.length_cons] at hs
        omega
      have hrec := IH (runRest c xs) hrlen
      rw [specCollapseRuns] at hrec
      rw [ccr_cons, specCollapseRuns, rle_cons, List.map_cons, rleDecode_cons, ← hrec]
      congr 1
      show ccrEmit c (runLen c xs + 1) =
        List.replicate
          ((if (c.isWord && decide (3 ≤ runLen c xs + 1)) = true
            then ((c, 1) : PChar × Nat) else (c, runLen c xs + 1)).2)
          ((if (c.isWord && decide (3 ≤ runLen c xs + 1)) = true
            then ((c, 1) : PChar × Nat) else (c, runLen c xs + 1)).1)
      by_cases h : (c.isWord && decide (3 ≤ runLen c xs + 1)) = true
      · rw [ccrEmit, if_pos h, if_pos h]
        rfl
      · rw [ccrEmit, if_neg h, if_neg h]

theorem collapse_eq_spec (s : PyStr) : collapseCharRuns s = specCollapseRuns s :=
  collapse_eq_spec_bounded s.length s le_rfl

theorem dedup_subset : ∀ (ts seen : List PyStr) (t : PyStr),
    t ∈ dedupTokens seen ts → t ∈ ts := by
  intro ts
  induction ts with
  | nil =>
    intro seen t h
    simp [dedupTokens] at h
  | cons w rest ih =>
    intro seen t h
    rw [dedupTokens] at h
    by_cases hw : w ∈ seen
    · rw [if_pos hw] at h
      exact List.mem_cons_of_mem w (ih seen t h)
    · rw [if_neg hw] at h
      rcases List.mem_cons.mp h with h1 | h1
      · simp [h1]
      · exact List.mem_cons_of_mem w (ih _ t h1)

theorem dedup_nodup_notin : ∀ (ts seen : List PyStr),
    (dedupTokens seen ts).Nodup ∧ ∀ t ∈ dedupTokens seen ts, t ∉ seen := by
  intro ts
  induction ts with
  | nil =>
    intro seen
    refine ⟨by simp [dedupTokens], ?_⟩
    intro t ht
    simp [dedupTokens] at ht
  | cons w rest ih =>
    intro seen
    rw [dedupTokens]
    by_cases hw : w ∈ seen
    · rw [if_pos hw]
      exact ih seen
    · rw [if_neg hw]
      obtain ⟨hnd, hnin⟩ := ih (w :: seen)
      refine ⟨?_, ?_⟩
      · rw [List.nodup_cons]
        exact ⟨fun hmem => hnin w hmem (by simp), hnd⟩
      · intro t ht
        rcases List.mem_cons.mp ht with h1 | h1
        · subst h1
          exact hw
        · intro hts
          exact hnin t h1 (by simp [hts])

theorem dedup_id : ∀ (ts seen : List PyStr), ts.Nodup → (∀ t ∈ ts, t ∉ seen) →
    dedupTokens seen ts = ts := by
  intro ts
  induction ts with
  | nil =>
    intro seen _ _
    rfl
  | cons w rest ih =>
    intro seen hnd hnin
    rw [dedupTokens, if_neg (hnin w (by simp))]
    congr 1
    apply ih
    · exact (List.nodup_cons.mp hnd).2
    · intro t ht hmem
      rcases List.mem_cons.mp hmem with h1 | h1
      · exact (List.nodup_cons.mp hnd).1 (h1 ▸ ht)
      · exact hnin t (List.mem_cons_of_mem w ht) h1

theorem dedup_foldl : ∀ (ts seen acc : List PyStr), (∀ t, t ∈ seen ↔ t ∈ acc) →
    ts.foldl (fun acc t => if t ∈ acc then acc else acc ++ [t]) acc =
      acc ++ dedupTokens seen ts := by
  intro ts
  induction ts with
  | nil =>
    intro seen acc h
    simp [dedupTokens]
  | cons w rest ih =>
    intro seen acc h
    rw [List.foldl_cons, dedupTokens]
    by_cases hw : w ∈ seen
    · rw [if_pos hw, if_pos ((h w).mp hw)]
      exact ih seen acc h
    · rw [if_neg hw, if_neg (fun hc => hw ((h w).mpr hc))]
      rw [ih (w :: seen) (acc ++ [w])
        (by intro t; simp [List.mem_cons, List.mem_append, h t, or_comm])]
      simp

theorem specDedup_eq_dedup (ts : List PyStr) : specDedup ts = dedupTokens [] ts := by
  have h := dedup_foldl ts [] [] (by intro t; simp)
  simpa [specDedup] using h

/-- C3 (corrected): on "!!!" the source regex `(\w)\1{2,}` does not fire —
`!` is not a word character — so `clean_repetitions` keeps "!!!" while the
claim's reference transform, collapsing runs of identical characters of ANY
kind, would produce "!". -/
theorem C3_counterexample :
    clean_repetitions strBangs = strBangs ∧
    clean_repetitions_claimed strBangs = [PChar.sym 33] ∧
    clean_repetitions strBangs ≠ clean_repetitions_claimed strBangs :=
  ⟨by decide, by decide, by decide⟩

/-- C3 (amended): `clean_repetitions` equals the three-step reference
transform in which step 1 collapses, per maximal run, only runs of 3 or
more identical WORD characters (alphanumeric or underscore), followed by
whitespace collapsing and first-seen token deduplication; in particular
"Reeeequest" becomes "Request" and "Proposal Draft Proposal" becomes
"Proposal Draft". -/
theorem C3_clean_repetitions_spec :
    (∀ s : PyStr, clean_repetitions s = clean_repetitions_spec s) ∧
    clean_repetitions strReeeequest = strRequest ∧
    clean_repetitions strPDP = strProposal ++ spaceChar :: strDraft := by
  refine ⟨?_, by decide, by decide⟩
  intro s
  rw [clean_repetitions, clean_repetitions_spec, specDedup_eq_dedup, ← collapse_eq_spec]

theorem ndw_tail (a : PChar) (l : PyStr) (h : noDoubleWs (a :: l) = true) :
    noDoubleWs l = true := by
  cases l with
  | nil => rfl
  | cons b t =>
    rw [noDoubleWs, Bool.and_eq_true] at h
    exact h.2

theorem wsFree_cons (a : PChar) (t : PyStr) (h : wsFree (a :: t) = true) :
    a.isSpace = false ∧ wsFree t = true := by
  rw [wsFree, List.all_cons, Bool.and_eq_true] at h
  exact ⟨by simpa using h.1, h.2⟩

theorem ndw_append_wsFree : ∀ (xs l : PyStr), wsFree xs = true → noDoubleWs l = true →
    noDoubleWs (xs ++ l) = true := by
  intro xs
  induction xs with
  | nil =>
    intro l _ h2
    simpa using h2
  | cons a t ih =>
    intro l h1 h2
    obtain ⟨ha, ht⟩ := wsFree_cons a t h1
    have hrec := ih l ht h2
    rw [List.cons_append]
    cases hc : t ++ l with
    | nil => rfl
    | cons b t2 =>
      rw [noDoubleWs, Bool.and_eq_true]
      refine ⟨by simp [ha], ?_⟩
      rw [hc] at hrec
      exact hrec

theorem ndw_of_wsFree (t : PyStr) (h : wsFree t = true) : noDoubleWs t = true := by
  have h2 := ndw_append_wsFree t [] h rfl
  simpa using h2

theorem cw_append_nonws : ∀ (p rest : PyStr), wsFree p = true →
    collapseWhitespace (p ++ rest) = p ++ collapseWhitespace rest := by
  intro p
  induction p with
  | nil =>
    intro rest _
    simp
  | cons a t ih =>
    intro rest h
    obtain ⟨ha, ht⟩ := wsFree_cons a t h
    rw [List.cons_append, cw_cons_nonspace a _ ha, ih rest ht, List.cons_append]

theorem cw_ws_head (w : PChar) (xs : PyStr) (h : w.isSpace = true) :
    ∃ hd tl, collapseWhitespace (w :: xs) = hd :: tl ∧ hd.isSpace = true := by
  rw [cw_cons_space w xs h]
  by_cases he : (xs.takeWhile PChar.isSpace).isEmpty = true
  · rw [if_pos he]
    exact ⟨w, collapseWhitespace (xs.dropWhile PChar.isSpace), rfl, h⟩
  · rw [if_neg he]
    exact ⟨spaceChar, collapseWhitespace (xs.dropWhile PChar.isSpace), rfl, rfl⟩

theorem pySplit_dropSpaces : ∀ s : PyStr,
    pySplit (s.dropWhile PChar.isSpace) = pySplit s := by
  intro s
  induction s with
  | nil => rfl
  | cons a t ih =>
    by_cases ha : a.isSpace = true
    · rw [List.dropWhile_cons, if_pos ha, ih, pySplit_cons_space a t ha]
    · rw [List.dropWhile_cons, if_neg ha]

theorem cw_split_bounded : ∀ (n : Nat) (s : PyStr), s.length ≤ n →
    pySplit (collapseWhitespace s) = pySplit s := by
  intro n
  induction n with
  | zero =>
    intro s hs
    have hnil : s = [] := List.length_eq_zero.mp (Nat.le_zero.mp hs)
    subst hnil
    rfl
  | succ n IH =>
    intro s hs
    cases s with
    | nil => rfl
    | cons c xs =>
      by_cases hc : c.isSpace = true
      · rw [cw_cons_space c xs hc]
        have hlen : (xs.dropWhile PChar.isSpace).length ≤ n := by
          have hle : (xs.dropWhile PChar.isSpace).length ≤ xs.length :=
            (List.dropWhile_suffix _).length_le
          simp only [List.length_cons] at hs
          omega
        have hrec := IH _ hlen
        by_cases he : (xs.takeWhile PChar.isSpace).isEmpty = true
        · rw [if_pos he, List.singleton_append, pySplit_cons_space c _ hc, hrec,
            pySplit_dropSpaces, pySplit_cons_space c xs hc]
        · rw [if_neg he, List.singleton_append, pySplit_cons_space spaceChar _ rfl, hrec,
            pySplit_dropSpaces, pySplit_cons_space c xs hc]
      · have hc' : c.isSpace = false := by simpa using hc
        rw [cw_cons_nonspace c xs hc', pySplit_cons_nonspace c _ hc',
          pySplit_cons_nonspace c xs hc']
        have htw : ∀ a ∈ xs.takeWhile (fun d => !d.isSpace),
            (fun d => !d.isSpace) a = true := by
          intro a ha
          exact List.mem_takeWhile_imp (p := fun d => !d.isSpace) (l := xs) ha
        have htwf : wsFree (xs.takeWhile (fun d => !d.isSpace)) = true := by
          rw [wsFree, List.all_eq_true]
          exact htw
        have hcw : collapseWhitespace xs =
            xs.takeWhile (fun d => !d.isSpace) ++
              collapseWhitespace (xs.dropWhile (fun d => !d.isSpace)) := by
          conv_lhs => rw [← List.takeWhile_append_dropWhile (p := fun d => !d.isSpace) (l := xs)]
          exact cw_append_nonws _ _ htwf
        cases hdw : xs.dropWhile (fun d => !d.isSpace) with
        | nil =>
          rw [hdw] at hcw
          have hcw2 : collapseWhitespace xs = xs.takeWhile (fun d => !d.isSpace) := by
            rw [hcw]
            simp [collapseWhitespace, cwAux]
          rw [hcw2, takeWhile_all _ _ htw, dropWhile_all _ _ htw]
        | cons w dw2 =>
          have hwsp : w.isSpace = true := by
            have hh := dropWhile_head_not (fun d => !d.isSpace) xs w dw2 hdw
            simpa using hh
          obtain ⟨hd, tl, hcwdw, hhds⟩ := cw_ws_head w dw2 hwsp
          rw [hdw, hcwdw] at hcw
          rw [hcw, takeWhile_append_of_all _ _ _ htw, dropWhile_append_of_all _ _ _ htw,
            List.takeWhile_cons, if_neg (by simp [hhds]), List.append_nil,
            List.dropWhile_cons, if_neg (by simp [hhds])]
          congr 1
          rw [← hcwdw]
          apply IH
          have hle : (xs.dropWhile (fun d => !d.isSpace)).length ≤ xs.length :=
            (List.dropWhile_suffix _).length_le
          rw [hdw] at hle
          simp only [List.length_cons] at hs hle ⊢
          omega

theorem cw_split (u : PyStr) : pySplit (collapseWhitespace u) = pySplit u :=
  cw_split_bounded u.length u le_rfl

theorem cw_id : ∀ s : PyStr, noDoubleWs s = true → collapseWhitespace s = s := by
  intro s
  induction s with
  | nil =>
    intro _
    rfl
  | cons c xs ih =>
    intro h
    by_cases hc : c.isSpace = true
    · have htw : xs.takeWhile PChar.isSpace = [] := by
        cases xs with
        | nil => rfl
        | cons d t =>
          rw [noDoubleWs, Bool.and_eq_true] at h
          have hd : d.isSpace = false := by
            have hh := h.1
            simp [hc] at hh
            exact hh
          rw [List.takeWhile_cons, if_neg (by simp [hd])]
      have hdw : xs.dropWhile PChar.isSpace = xs := by
        cases xs with
        | nil => rfl
        | cons d t =>
          rw [noDoubleWs, Bool.and_eq_true] at h
          have hd : d.isSpace = false := by
            have hh := h.1
            simp [hc] at hh
            exact hh
          rw [List.dropWhile_cons, if_neg (by simp [hd])]
      rw [cw_cons_space c xs hc, htw, hdw,
        if_pos (show (([] : PyStr)).isEmpty = true from rfl), List.singleton_append,
        ih (ndw_tail c xs h)]
    · have hc' : c.isSpace = false := by simpa using hc
      rw [cw_cons_nonspace c xs hc', ih (ndw_tail c xs h)]

theorem join_head_nonws : ∀ ts : List PyStr, (∀ t ∈ ts, t ≠ [] ∧ wsFree t = true) →
    ts ≠ [] → ∃ hd tl, joinSpace ts = hd :: tl ∧ hd.isSpace = false := by
  intro ts h hne
  cases ts with
  | nil => exact absurd rfl hne
  | cons t ts2 =>
    obtain ⟨ht1, ht2⟩ := h t (by simp)
    cases t with
    | nil => exact absurd rfl ht1
    | cons c t2 =>
      have hc := (wsFree_cons c t2 ht2).1
      cases ts2 with
      | nil => exact ⟨c, t2, rfl, hc⟩
      | cons u us =>
        refine ⟨c, t2 ++ spaceChar :: joinSpace (u :: us), ?_, hc⟩
        simp [joinSpace]

theorem join_noDoubleWs : ∀ ts : List PyStr, (∀ t ∈ ts, t ≠ [] ∧ wsFree t = true) →
    noDoubleWs (joinSpace ts) = true := by
  intro ts
  induction ts with
  | nil =>
    intro _
    rfl
  | cons t ts2 ih =>
    intro h
    cases ts2 with
    | nil =>
      simp only [joinSpace]
      exact ndw_of_wsFree t (h t (by simp)).2
    | cons u us =>
      simp only [joinSpace]
      apply ndw_append_wsFree t _ (h t (by simp)).2
      obtain ⟨hd, tl, hj, hhd⟩ := join_head_nonws (u :: us)
        (fun v hv => h v (by simp [hv])) (by simp)
      rw [hj, noDoubleWs, Bool.and_eq_true]
      refine ⟨by simp [hhd], ?_⟩
      have hrec := ih (fun v hv => h v (by simp [hv]))
      rw [hj] at hrec
      exact hrec

theorem join_noTriple : ∀ ts : List PyStr,
    (∀ t ∈ ts, t ≠ [] ∧ wsFree t = true ∧ noTriple t = true) →
    noTriple (joinSpace ts) = true := by
  intro ts
  induction ts with
  | nil =>
    intro _
    rfl
  | cons t ts2 ih =>
    intro h
    cases ts2 with
    | nil =>
      simp only [joinSpace]
      exact (h t (by simp)).2.2
    | cons u us =>
      simp only [joinSpace]
      obtain ⟨hd, tl, hj, hhd⟩ := join_head_nonws (u :: us)
        (fun v hv => ⟨(h v (by simp [hv])).1, (h v (by simp [hv])).2.1⟩) (by simp)
      apply glueNoTriple
      · exact (h t (by simp)).2.2
      · apply noTriple_cons_of_head_ne
        · intro z hz heq
          rw [hj] at hz
          have hzz : hd = z := by simpa using hz
          rw [hzz, heq] at hhd
          simp [spaceChar, PChar.isSpace] at hhd
        · exact ih (fun v hv => h v (by simp [hv]))
      · obtain ⟨ht1, ht2, _⟩ := h t (by simp)
        intro hlast
        have hmem := getLast?_mem_self t spaceChar hlast
        have hws := List.all_eq_true.mp ht2 spaceChar hmem
        simp [spaceChar, PChar.isSpace] at hws

theorem pySplit_join : ∀ ts : List PyStr, (∀ t ∈ ts, t ≠ [] ∧ wsFree t = true) →
    pySplit (joinSpace ts) = ts := by
  intro ts
  induction ts with
  | nil =>
    intro _
    rfl
  | cons t ts2 ih =>
    intro h
    obtain ⟨ht1, ht2⟩ := h t (by simp)
    cases t with
    | nil => exact absurd rfl ht1
    | cons c t2 =>
      obtain ⟨hc, ht2f⟩ := wsFree_cons c t2 ht2
      have hallt : ∀ a ∈ t2, (fun d => !d.isSpace) a = true := by
        intro a ha
        have hx := List.all_eq_true.mp ht2f a ha
        simpa using hx
      cases ts2 with
      | nil =>
        simp only [joinSpace]
        rw [pySplit_cons_nonspace c t2 hc, takeWhile_all _ _ hallt, dropWhile_all _ _ hallt]
        rfl
      | cons u us =>
        simp only [joinSpace]
        rw [List.cons_append, pySplit_cons_nonspace c _ hc,
          takeWhile_append_of_all _ _ _ hallt, dropWhile_append_of_all _ _ _ hallt,
          List.takeWhile_cons, if_neg (by simp [spaceChar, PChar.isSpace]),
          List.append_nil, List.dropWhile_cons,
          if_neg (by simp [spaceChar, PChar.isSpace]),
          pySplit_cons_space spaceChar _ rfl,
          ih (fun v hv => h v (by simp [hv]))]

/-- C5: the repetition cleaner is idempotent — applying `clean_repetitions`
to its own output returns that output unchanged, for every string. -/
theorem C5_clean_repetitions_idempotent :
    ∀ s : PyStr, clean_repetitions (clean_repetitions s) = clean_repetitions s := by
  intro s
  have hsplit : pySplit (collapseWhitespace (collapseCharRuns s)) =
      pySplit (collapseCharRuns s) := cw_split (collapseCharRuns s)
  have htokfacts : ∀ t ∈ dedupTokens [] (pySplit (collapseWhitespace (collapseCharRuns s))),
      t ≠ [] ∧ wsFree t = true ∧ noTriple t = true := by
    intro t ht
    have ht0 : t ∈ pySplit (collapseWhitespace (collapseCharRuns s)) :=
      dedup_subset _ [] t ht
    obtain ⟨h1, h2, _⟩ := pySplit_mem _ t ht0
    have ht1 : t ∈ pySplit (collapseCharRuns s) := by
      rw [← hsplit]
      exact ht0
    have hinf : t <:+: collapseCharRuns s := (pySplit_mem _ t ht1).2.2
    exact ⟨h1, h2, noTriple_infix t _ hinf (noTriple_collapse s)⟩
  have hnodup : (dedupTokens [] (pySplit (collapseWhitespace (collapseCharRuns s)))).Nodup :=
    (dedup_nodup_notin _ []).1
  set ts := dedupTokens [] (pySplit (collapseWhitespace (collapseCharRuns s))) with hts
  have hout : clean_repetitions s = joinSpace ts := by
    simp only [clean_repetitions]
  rw [hout]
  simp only [clean_repetitions]
  rw [collapse_id _ (join_noTriple ts htokfacts),
    cw_id _ (join_noDoubleWs ts (fun t ht => ⟨(htokfacts t ht).1, (htokfacts t ht).2.1⟩)),
    pySplit_join ts (fun t ht => ⟨(htokfacts t ht).1, (htokfacts t ht).2.1⟩),
    dedup_id ts [] hnodup (fun t ht hmem => by simp at hmem)]
